import Mathlib

/-!
Shallow embedding of `bandit.py`, a Thompson-sampling simulation of the
Bernoulli multi-armed bandit problem.

Randomness is modelled by oracles: the hidden arm probabilities are produced
by a draw function `ℕ → ℚ` (one uniform draw per arm, `np.random.random_sample`),
each `np.random.beta(a, b)` call is an oracle value indexed by the iteration,
the arm and the Beta parameters, and each `np.random.binomial(1, p)` call is
the inverse-transform of one uniform draw `u` (outcome `1` iff `u < p`).
Fallible numpy indexing (IndexError) is embedded as `Option`/`Except`.
-/

namespace BanditSpec

/-- Embeds the `Bandits` class state: `self.bandits` (the hidden probability
array) and `self.max_prob` (cached `np.amax(self.bandits)`). -/
structure Bandits where
  bandits : List ℚ
  max_prob : ℚ
deriving DecidableEq

/-- Embeds `np.amax`: maximum of an array, an error (`none`) on an empty one. -/
def npAmax : List ℚ → Option ℚ
  | [] => none
  | x :: t => some (t.foldl max x)

/-- Embeds `Bandits.__init__(size)`: rejects `size < 2` with an error,
otherwise draws `size` hidden probabilities from the uniform oracle `draw`
and caches their maximum. -/
def Bandits.init (size : ℤ) (draw : ℕ → ℚ) : Except String Bandits :=
  if size < 2 then
    Except.error "Number of bandits for test is invalid, must specify at least two"
  else
    match npAmax ((List.range size.toNat).map draw) with
    | none => Except.error "zero-size array to reduction operation"
    | some m => Except.ok ⟨(List.range size.toNat).map draw, m⟩

/-- Embeds `np.random.binomial(1, p)` by inverse transform of one uniform
draw `u`: the draw is `1` iff `u < p`. -/
def binomialOne (p u : ℚ) : ℕ :=
  if u < p then 1 else 0

/-- Embeds `Bandits.select(number)`: `False` when `number < 0` or
`number >= self.bandits.size`, otherwise one Bernoulli draw at the arm's
hidden probability (`np.random.binomial(1, self.bandits[number]) == 1`). -/
def Bandits.select (b : Bandits) (number : ℤ) (u : ℚ) : Bool :=
  if number < 0 ∨ (b.bandits.length : ℤ) ≤ number then false
  else decide (binomialOne (b.bandits.getD number.toNat 0) u = 1)

/-- Embeds `Bandits.regret(number)`: `self.max_prob` when `number < 0` or
`number > self.bandits.size` (note `>`, not `>=`), otherwise
`self.max_prob - self.bandits[number]`; the indexing raises IndexError
(`none`) when `number == self.bandits.size` slips past the bounds test. -/
def Bandits.regret (b : Bandits) (number : ℤ) : Option ℚ :=
  if number < 0 ∨ (b.bandits.length : ℤ) < number then some b.max_prob
  else (b.bandits[number.toNat]?).map (fun p => b.max_prob - p)

/-- Helper for `draw_bandit_distribution`: walks the per-arm stats carrying
the arm index for the Beta oracle. -/
def drawAux (beta : ℕ → ℕ → ℕ → ℚ) : ℕ → List (ℕ × ℕ) → List ℚ
  | _, [] => []
  | i, s :: t => beta i (s.1 + 1) (s.2 + 1) :: drawAux beta (i + 1) t

/-- Embeds the vectorized `draw_bandit_distribution(stats)`: one
`np.random.beta(wins + 1, losses + 1)` draw per arm, in arm order. The oracle
`beta` gives the draw for (arm index, alpha, beta) of the current round. -/
def draw_bandit_distribution (beta : ℕ → ℕ → ℕ → ℚ) (stats : List (ℕ × ℕ)) : List ℚ :=
  drawAux beta 0 stats

/-- Embeds `np.argmax` (`current_draws.argmax(axis=0)`): index of the first
occurrence of the maximum value; `0` on an empty array. -/
def argmax : List ℚ → ℕ
  | [] => 0
  | x :: t =>
    match t[argmax t]? with
    | none => 0
    | some m => if x < m then argmax t + 1 else 0

/-- Embeds one row of `overallStats`: fields `bandit`, `wins`, `losses`,
`regret` (the last three cumulative, per the copy-then-increment loop). -/
structure RoundRecord where
  bandit : ℕ
  wins : ℕ
  losses : ℕ
  regret : ℚ
deriving DecidableEq

/-- The simulation loop state: `banditStats` (per-arm wins/losses counters)
and the rows of `overallStats` filled in so far. -/
structure SimState where
  banditStats : List (ℕ × ℕ)
  overallStats : List RoundRecord
deriving DecidableEq

/-- The record the loop copies from: the previous row of `overallStats`, or
the all-zero row the array was initialized with when none exists yet. -/
def lastOrZero (l : List RoundRecord) : RoundRecord :=
  match l.getLast? with
  | none => ⟨0, 0, 0, 0⟩
  | some r => r

/-- Embeds one iteration of the simulation loop: draw from each arm's
posterior, pick the argmax, run the trial, bump the selected arm's counter
(IndexError as `none` if the index were out of range) and append the new
cumulative row, adding this round's regret (`none` if `regret` raised). -/
def simStep (b : Bandits) (betaI : ℕ → ℕ → ℕ → ℚ) (u : ℚ) (st : SimState) :
    Option SimState :=
  let current_draws := draw_bandit_distribution betaI st.banditStats
  let selected := argmax current_draws
  let prev := lastOrZero st.overallStats
  let won := b.select (selected : ℤ) u
  match st.banditStats[selected]?, b.regret (selected : ℤ) with
  | some (w, l), some rg =>
      let newStats :=
        if won then st.banditStats.set selected (w + 1, l)
        else st.banditStats.set selected (w, l + 1)
      let newRecord : RoundRecord :=
        { bandit := selected
          wins := prev.wins + (if won then 1 else 0)
          losses := prev.losses + (if won then 0 else 1)
          regret := prev.regret + rg }
      some ⟨newStats, st.overallStats ++ [newRecord]⟩
  | _, _ => none

/-- The loop state before the first iteration: `banditStats` all zeros
(`np.zeros((bandit_count,))`), no `overallStats` rows filled yet. -/
def initState (k : ℕ) : SimState :=
  ⟨List.replicate k (0, 0), []⟩

/-- Runs `n` iterations of the simulation loop. `betaO` and `uO` give each
iteration's Beta draws and trial uniform draw. -/
def runSim (k : ℕ) (b : Bandits) (betaO : ℕ → ℕ → ℕ → ℕ → ℚ) (uO : ℕ → ℚ) :
    ℕ → Option SimState
  | 0 => some (initState k)
  | n + 1 => (runSim k b betaO uO n).bind (simStep b (betaO n) (uO n))

/-- Embeds the `__main__` block after argument parsing: coerce the trial
count up to 1, build the bandits (fatal configuration error if invalid), run
the loop, and hand the filled `overallStats` rows to the plotting sink. -/
def mainSim (bandit_count trial_count_arg : ℤ) (draw : ℕ → ℚ)
    (betaO : ℕ → ℕ → ℕ → ℕ → ℚ) (uO : ℕ → ℚ) : Except String (List RoundRecord) :=
  let trial_count := if trial_count_arg < 1 then 1 else trial_count_arg
  match Bandits.init bandit_count draw with
  | Except.error e => Except.error e
  | Except.ok b =>
      match runSim bandit_count.toNat b betaO uO trial_count.toNat with
      | none => Except.error "IndexError"
      | some st => Except.ok st.overallStats

/-! ### Basic lemmas about the embedded operations -/

lemma drawAux_length (beta : ℕ → ℕ → ℕ → ℚ) (i : ℕ) (l : List (ℕ × ℕ)) :
    (drawAux beta i l).length = l.length := by
  induction l generalizing i with
  | nil => rfl
  | cons s t ih => simp [drawAux, ih]

lemma draw_bandit_distribution_length (beta : ℕ → ℕ → ℕ → ℚ) (stats : List (ℕ × ℕ)) :
    (draw_bandit_distribution beta stats).length = stats.length :=
  drawAux_length beta 0 stats

lemma drawAux_getElem? (beta : ℕ → ℕ → ℕ → ℚ) (i j : ℕ) (l : List (ℕ × ℕ)) :
    (drawAux beta i l)[j]? = (l[j]?).map (fun s => beta (i + j) (s.1 + 1) (s.2 + 1)) := by
  induction l generalizing i j with
  | nil => simp [drawAux]
  | cons s t ih =>
    cases j with
    | zero => simp [drawAux]
    | succ j =>
      have harith : i + 1 + j = i + (j + 1) := by omega
      simp [drawAux, ih, harith]

lemma argmax_cons (x : ℚ) (t : List ℚ) :
    argmax (x :: t) = match t[argmax t]? with
      | none => 0
      | some m => if x < m then argmax t + 1 else 0 := rfl

lemma argmax_lt_length (l : List ℚ) (h : 0 < l.length) : argmax l < l.length := by
  match l with
  | x :: t =>
    rw [argmax_cons]
    cases ht : t[argmax t]? with
    | none => simp
    | some m =>
      have hlt : argmax t < t.length := by
        by_contra hc
        push_neg at hc
        rw [List.getElem?_eq_none hc] at ht
        exact Option.noConfusion ht
      by_cases hx : x < m
      · simp only [hx, if_true]
        exact Nat.succ_lt_succ hlt
      · simp [hx]

lemma argmax_spec (l : List ℚ) (h : 0 < l.length) :
    ∃ m, l[argmax l]? = some m ∧ (∀ y ∈ l, y ≤ m) ∧
      (∀ j, j < argmax l → ∀ y, l[j]? = some y → y < m) := by
  induction l with
  | nil => simp at h
  | cons x t ih =>
    cases ht : t[argmax t]? with
    | none =>
      have ht0 : t.length = 0 := by
        by_contra hc
        have := argmax_lt_length t (Nat.pos_of_ne_zero hc)
        rw [List.getElem?_eq_getElem this] at ht
        exact Option.noConfusion ht
      have hnil : t = [] := List.length_eq_zero.mp ht0
      subst hnil
      refine ⟨x, ?_, ?_, ?_⟩
      · simp [argmax_cons]
      · intro y hy
        simp at hy
        simp [hy]
      · intro j hj
        simp [argmax_cons] at hj
    | some m' =>
      have htpos : 0 < t.length := by
        by_contra hc
        push_neg at hc
        rw [List.getElem?_eq_none (by omega)] at ht
        exact Option.noConfusion ht
      obtain ⟨m, hm, hub, hfirst⟩ := ih htpos
      rw [hm] at ht
      have hmm : m' = m := by injection ht.symm
      subst hmm
      by_cases hx : x < m'
      · refine ⟨m', ?_, ?_, ?_⟩
        · simp only [argmax_cons, hm, if_pos hx]
          simpa using hm
        · intro y hy
          rcases List.mem_cons.mp hy with rfl | hy'
          · exact le_of_lt hx
          · exact hub y hy'
        · intro j hj y hy
          simp only [argmax_cons, hm, if_pos hx] at hj
          cases j with
          | zero =>
            simp at hy
            subst hy
            exact hx
          | succ j' =>
            simp at hy
            exact hfirst j' (Nat.lt_of_succ_lt_succ hj) y hy
      · refine ⟨x, ?_, ?_, ?_⟩
        · simp [argmax_cons, hm, if_neg hx]
        · intro y hy
          rcases List.mem_cons.mp hy with rfl | hy'
          · exact le_refl y
          · exact le_trans (hub y hy') (not_lt.mp hx)
        · intro j hj y hy
          simp only [argmax_cons, hm, if_neg hx] at hj
          exact absurd hj (Nat.not_lt_zero j)

lemma le_foldl_max (x : ℚ) (t : List ℚ) :
    x ≤ t.foldl max x ∧ ∀ y ∈ t, y ≤ t.foldl max x := by
  induction t generalizing x with
  | nil => simp
  | cons z t ih =>
    refine ⟨?_, ?_⟩
    · exact le_trans (le_max_left x z) (ih (max x z)).1
    · intro y hy
      rcases List.mem_cons.mp hy with rfl | hy'
      · exact le_trans (le_max_right x y) (ih (max x y)).1
      · exact (ih (max x z)).2 y hy'

lemma foldl_max_mem (x : ℚ) (t : List ℚ) : t.foldl max x = x ∨ t.foldl max x ∈ t := by
  induction t generalizing x with
  | nil => exact Or.inl rfl
  | cons z t ih =>
    rw [List.foldl_cons]
    rcases ih (max x z) with h | h
    · rcases max_choice x z with hc | hc
      · exact Or.inl (h.trans hc)
      · exact Or.inr (by rw [h, hc]; exact List.mem_cons_self z t)
    · exact Or.inr (List.mem_cons_of_mem z h)

lemma regret_in_range (b : Bandits) (n : ℕ) (hn : n < b.bandits.length) (p : ℚ)
    (hp : b.bandits[n]? = some p) :
    b.regret (n : ℤ) = some (b.max_prob - p) := by
  unfold Bandits.regret
  have h1 : ¬((n : ℤ) < 0 ∨ (b.bandits.length : ℤ) < (n : ℤ)) := by omega
  rw [if_neg h1, Int.toNat_natCast, hp]
  rfl

/-- The arm the loop picks in a round: `current_draws.argmax(axis=0)` for the
current `banditStats`. -/
def selected_bandit (betaI : ℕ → ℕ → ℕ → ℚ) (st : SimState) : ℕ :=
  argmax (draw_bandit_distribution betaI st.banditStats)

lemma lastOrZero_concat (l : List RoundRecord) (r : RoundRecord) :
    lastOrZero (l ++ [r]) = r := by
  simp [lastOrZero, List.getLast?_concat]

lemma getElem?_concat_cases {α : Type} (l : List α) (x : α) (i : ℕ) (a : α)
    (h : (l ++ [x])[i]? = some a) :
    (i < l.length ∧ l[i]? = some a) ∨ (i = l.length ∧ a = x) := by
  have hlt : i < l.length + 1 := by
    by_contra hc
    push_neg at hc
    rw [List.getElem?_eq_none (by simp; omega)] at h
    exact Option.noConfusion h
  rcases Nat.lt_or_ge i l.length with hi | hi
  · left
    refine ⟨hi, ?_⟩
    rw [List.getElem?_append, if_pos hi] at h
    exact h
  · right
    have hieq : i = l.length := by omega
    subst hieq
    rw [List.getElem?_concat_length] at h
    exact ⟨rfl, by injection h.symm⟩

lemma getElem?_append_left_of_lt {α : Type} {l : List α} (x : α) {i : ℕ}
    (h : i < l.length) : (l ++ [x])[i]? = l[i]? := by
  rw [List.getElem?_append, if_pos h]

lemma runSim_succ (k : ℕ) (b : Bandits) (betaO : ℕ → ℕ → ℕ → ℕ → ℚ) (uO : ℕ → ℚ)
    (n : ℕ) :
    runSim k b betaO uO (n + 1) = (runSim k b betaO uO n).bind (simStep b (betaO n) (uO n)) :=
  rfl

/-- One loop iteration never fails when the counter array is as long as the
(nonempty) bandit array, and produces exactly the copy-then-increment row. -/
lemma simStep_eq (b : Bandits) (betaI : ℕ → ℕ → ℕ → ℚ) (u : ℚ) (st : SimState)
    (hlen : st.banditStats.length = b.bandits.length) (hpos : 0 < b.bandits.length) :
    ∃ w l p,
      selected_bandit betaI st < b.bandits.length ∧
      st.banditStats[selected_bandit betaI st]? = some (w, l) ∧
      b.bandits[selected_bandit betaI st]? = some p ∧
      simStep b betaI u st = some
        ⟨(if b.select (selected_bandit betaI st : ℤ) u
            then st.banditStats.set (selected_bandit betaI st) (w + 1, l)
            else st.banditStats.set (selected_bandit betaI st) (w, l + 1)),
          st.overallStats ++ [⟨selected_bandit betaI st,
            (lastOrZero st.overallStats).wins +
              (if b.select (selected_bandit betaI st : ℤ) u then 1 else 0),
            (lastOrZero st.overallStats).losses +
              (if b.select (selected_bandit betaI st : ℤ) u then 0 else 1),
            (lastOrZero st.overallStats).regret + (b.max_prob - p)⟩]⟩ := by
  have hdlen : (draw_bandit_distribution betaI st.banditStats).length = st.banditStats.length :=
    draw_bandit_distribution_length betaI st.banditStats
  have hsel : selected_bandit betaI st < b.bandits.length := by
    have := argmax_lt_length (draw_bandit_distribution betaI st.banditStats) (by omega)
    unfold selected_bandit
    omega
  have hselst : selected_bandit betaI st < st.banditStats.length := by omega
  obtain ⟨wl, hwl⟩ : ∃ a, st.banditStats[selected_bandit betaI st]? = some a :=
    ⟨_, List.getElem?_eq_getElem hselst⟩
  obtain ⟨p, hp⟩ : ∃ a, b.bandits[selected_bandit betaI st]? = some a :=
    ⟨_, List.getElem?_eq_getElem hsel⟩
  obtain ⟨w, l⟩ := wl
  refine ⟨w, l, p, hsel, hwl, hp, ?_⟩
  have hreg := regret_in_range b (selected_bandit betaI st) hsel p hp
  unfold selected_bandit at hwl hreg ⊢
  simp only [simStep, hwl, hreg]

/-- Master invariant of the simulation loop: the run never fails, counter and
record lengths are as expected, each row's cumulative wins/losses sum to its
round index plus one, consecutive rows differ in regret by
`max_prob - probabilities[selected]` for an in-range selected arm, and each
arm's counters sum to the number of rows that selected it. -/
lemma runSim_inv (k : ℕ) (b : Bandits) (betaO : ℕ → ℕ → ℕ → ℕ → ℚ) (uO : ℕ → ℚ)
    (hk : k = b.bandits.length) (hpos : 0 < k) (n : ℕ) :
    ∃ st, runSim k b betaO uO n = some st ∧
      st.banditStats.length = k ∧
      st.overallStats.length = n ∧
      (lastOrZero st.overallStats).wins + (lastOrZero st.overallStats).losses = n ∧
      (0 < n → st.overallStats[n - 1]? = some (lastOrZero st.overallStats)) ∧
      (∀ i r, st.overallStats[i]? = some r → r.wins + r.losses = i + 1 ∧ r.bandit < k) ∧
      (∀ i r r', st.overallStats[i]? = some r → st.overallStats[i + 1]? = some r' →
        ∃ p, p ∈ b.bandits ∧ r'.regret = r.regret + (b.max_prob - p)) ∧
      (∀ arm, arm < k → ∃ w l, st.banditStats[arm]? = some (w, l) ∧
        w + l = st.overallStats.countP (fun r => r.bandit == arm)) := by
  induction n with
  | zero =>
    refine ⟨initState k, rfl, by simp [initState], by simp [initState],
      by simp [initState, lastOrZero], by omega, ?_, ?_, ?_⟩
    · intro i r hr
      simp [initState] at hr
    · intro i r r' hr
      simp [initState] at hr
    · intro arm harm
      exact ⟨0, 0, by simp [initState, List.getElem?_replicate, harm], by simp [initState]⟩
  | succ n ih =>
    obtain ⟨st, hrun, hblen, holen, hlast, hlastidx, hwl, hadj, hcount⟩ := ih
    obtain ⟨w, l, p, hsel, hwlsel, hp, hstep⟩ :=
      simStep_eq b (betaO n) (uO n) st (by omega) (by omega)
    obtain ⟨w2, l2, i1, i2, hw2l2, hi12, hstep2⟩ :
        ∃ w2 l2 i1 i2, w2 + l2 = w + l + 1 ∧ i1 + i2 = 1 ∧
          simStep b (betaO n) (uO n) st = some
            ⟨st.banditStats.set (selected_bandit (betaO n) st) (w2, l2),
              st.overallStats ++ [⟨selected_bandit (betaO n) st,
                (lastOrZero st.overallStats).wins + i1,
                (lastOrZero st.overallStats).losses + i2,
                (lastOrZero st.overallStats).regret + (b.max_prob - p)⟩]⟩ := by
      by_cases hwon : b.select (selected_bandit (betaO n) st : ℤ) (uO n) = true
      · exact ⟨w + 1, l, 1, 0, by omega, by omega, by rw [hstep]; simp [hwon]⟩
      · exact ⟨w, l + 1, 0, 1, by omega, by omega, by rw [hstep]; simp [hwon]⟩
    refine ⟨_, by rw [runSim_succ, hrun]; exact hstep2, ?_, ?_, ?_, ?_, ?_, ?_, ?_⟩
    · dsimp only
      simp [hblen]
    · dsimp only
      simp [holen]
    · dsimp only
      rw [lastOrZero_concat]
      dsimp only
      omega
    · intro _
      dsimp only
      rw [lastOrZero_concat, Nat.add_sub_cancel, ← holen]
      exact List.getElem?_concat_length _ _
    · intro i r hri
      dsimp only at hri
      rcases getElem?_concat_cases _ _ _ _ hri with ⟨hilt, hget⟩ | ⟨hieq, hreq⟩
      · exact hwl i r hget
      · subst hreq
        dsimp only
        constructor
        · omega
        · omega
    · intro i r r' hri hri'
      dsimp only at hri hri'
      rcases getElem?_concat_cases _ _ _ _ hri' with ⟨hilt', hget'⟩ | ⟨hieq', hreq'⟩
      · rcases getElem?_concat_cases _ _ _ _ hri with ⟨hilt, hget⟩ | ⟨hieq, hreq⟩
        · exact hadj i r r' hget hget'
        · omega
      · subst hreq'
        have hipos : 0 < st.overallStats.length := by omega
        have hlastget := hlastidx (by omega)
        have hri2 : st.overallStats[i]? = some r := by
          rcases getElem?_concat_cases _ _ _ _ hri with ⟨hilt, hget⟩ | ⟨hieq, hreq⟩
          · exact hget
          · omega
        have hieq2 : i = n - 1 := by omega
        rw [hieq2, hlastget] at hri2
        have hrlast : r = lastOrZero st.overallStats := by injection hri2.symm
        subst hrlast
        refine ⟨p, List.getElem?_mem hp, ?_⟩
        dsimp only
    · intro arm harm
      obtain ⟨w3, l3, hget3, hcnt3⟩ := hcount arm harm
      dsimp only
      by_cases harmsel : arm = selected_bandit (betaO n) st
      · subst harmsel
        have hws : w3 = w ∧ l3 = l := by
          rw [hwlsel] at hget3
          injection hget3 with h1
          rw [Prod.mk.injEq] at h1
          exact ⟨h1.1.symm, h1.2.symm⟩
        refine ⟨w2, l2, ?_, ?_⟩
        · rw [List.getElem?_set_self (by omega)]
        · rw [List.countP_append]
          simp only [List.countP_cons, List.countP_nil]
          simp only [beq_self_eq_true, if_true]
          omega
      · refine ⟨w3, l3, ?_, ?_⟩
        · rw [List.getElem?_set_ne (fun hc => harmsel hc.symm)]
          exact hget3
        · rw [List.countP_append]
          simp only [List.countP_cons, List.countP_nil]
          have hne : ((selected_bandit (betaO n) st == arm) : Bool) = false := by
            simp
            exact fun hc => harmsel hc.symm
          simp only [hne, Bool.false_eq_true, if_false]
          omega

lemma init_ok (size : ℤ) (draw : ℕ → ℚ) (h2 : 2 ≤ size) :
    ∃ b, Bandits.init size draw = Except.ok b ∧
      b.bandits = (List.range size.toNat).map draw ∧
      b.max_prob ∈ b.bandits ∧ ∀ p ∈ b.bandits, p ≤ b.max_prob := by
  cases hl : (List.range size.toNat).map draw with
  | nil =>
    exfalso
    have hsz : size.toNat ≠ 0 := by omega
    simp only [List.map_eq_nil_iff, List.range_eq_nil] at hl
    exact hsz hl
  | cons x t =>
    refine ⟨⟨x :: t, t.foldl max x⟩, ?_, rfl, ?_, ?_⟩
    · unfold Bandits.init
      rw [if_neg (by omega), hl]
      rfl
    · dsimp only
      rcases foldl_max_mem x t with h | h
      · rw [h]
        exact List.mem_cons_self x t
      · exact List.mem_cons_of_mem x h
    · intro p hp
      dsimp only at hp ⊢
      rcases List.mem_cons.mp hp with rfl | hp'
      · exact (le_foldl_max p t).1
      · exact (le_foldl_max x t).2 p hp'

lemma init_ok_inv (size : ℤ) (draw : ℕ → ℚ) (b : Bandits)
    (h : Bandits.init size draw = Except.ok b) :
    2 ≤ size ∧ b.bandits.length = size.toNat := by
  unfold Bandits.init at h
  by_cases h2 : size < 2
  · rw [if_pos h2] at h
    exact absurd h (by simp)
  · rw [if_neg h2] at h
    cases hl : npAmax ((List.range size.toNat).map draw) with
    | none =>
      rw [hl] at h
      exact absurd h (by simp)
    | some m =>
      rw [hl] at h
      injection h with hb
      subst hb
      refine ⟨by omega, ?_⟩
      simp

/-- Concrete two-armed bandit environment used to instantiate the theorems. -/
def b₀ : Bandits := ⟨[1/2, 1/2], 1/2⟩

/-- Constant Beta-draw oracle used to instantiate the theorems. -/
def betaO₀ : ℕ → ℕ → ℕ → ℕ → ℚ := fun _ _ _ _ => 1/2

/-- Constant uniform-draw oracle used to instantiate the theorems. -/
def uO₀ : ℕ → ℚ := fun _ => 1/2

/-! ### Claim theorems -/

/-- Claim C1: the claim states that `regret` returns `best_probability` for
every arm index outside `[0, K)`. The code refutes it at arm index `K`: the
bounds test in `regret` uses `>` where `select` uses `>=`, so index `K` slips
past the test into the indexing branch, which raises IndexError (`none` here)
instead of returning `best_probability`. -/
theorem regret_at_arm_count_raises (b : Bandits) :
    b.regret (b.bandits.length : ℤ) = none := by
  unfold Bandits.regret
  rw [if_neg (by omega), Int.toNat_natCast, List.getElem?_eq_none (le_refl _)]
  rfl

/-- Claim C2: a run of `trialCount` rounds yields exactly `trialCount`
round records, and every record's cumulative wins plus cumulative losses
equal its round index plus one. -/
theorem run_produces_trialCount_records (k : ℕ) (b : Bandits)
    (betaO : ℕ → ℕ → ℕ → ℕ → ℚ) (uO : ℕ → ℚ) (n : ℕ)
    (hk : k = b.bandits.length) (hpos : 0 < k) :
    ∃ st, runSim k b betaO uO n = some st ∧
      st.overallStats.length = n ∧
      ∀ i r, st.overallStats[i]? = some r → r.wins + r.losses = i + 1 := by
  obtain ⟨st, h1, _, h3, _, _, h6, _, _⟩ := runSim_inv k b betaO uO hk hpos n
  exact ⟨st, h1, h3, fun i r hr => (h6 i r hr).1⟩

/-- Claim C3: on a non-empty sample list, `argmax` returns an in-range index
holding the maximum value, every strictly earlier index holds a strictly
smaller value (ties resolve to the lowest index), and in particular
`argmax [0.5, 0.9, 0.9] = 1`; being a function, it is deterministic. -/
theorem argmax_selects_first_maximum (x : ℚ) (t : List ℚ) :
    (argmax (x :: t) < (x :: t).length ∧
      ∃ m, (x :: t)[argmax (x :: t)]? = some m ∧
        (∀ y ∈ x :: t, y ≤ m) ∧
        ∀ j, j < argmax (x :: t) → ∀ y, (x :: t)[j]? = some y → y < m) ∧
    argmax [(1 : ℚ)/2, 9/10, 9/10] = 1 :=
  ⟨⟨argmax_lt_length _ (by simp), argmax_spec _ (by simp)⟩, by norm_num [argmax]⟩

/-- Claim C4: sampling the posterior model returns one value per arm in arm
order, the value for an arm with counters `(s, f)` being one Beta draw with
parameters `(s + 1, f + 1)`; with no data the parameters are `(1, 1)`, the
uniform prior. -/
theorem draw_bandit_distribution_spec (beta : ℕ → ℕ → ℕ → ℚ)
    (stats : List (ℕ × ℕ)) :
    (draw_bandit_distribution beta stats).length = stats.length ∧
    (∀ i s f, stats[i]? = some (s, f) →
      (draw_bandit_distribution beta stats)[i]? = some (beta i (s + 1) (f + 1))) ∧
    (∀ i, stats[i]? = some (0, 0) →
      (draw_bandit_distribution beta stats)[i]? = some (beta i 1 1)) := by
  refine ⟨draw_bandit_distribution_length beta stats, ?_, ?_⟩
  · intro i s f h
    unfold draw_bandit_distribution
    rw [drawAux_getElem?, h]
    simp
  · intro i h
    unfold draw_bandit_distribution
    rw [drawAux_getElem?, h]
    simp

/-- Claim C5: the trial operation (`Bandits.select`) returns `false` for
every arm index outside `[0, K)` — never an error — and for an in-range arm
returns the outcome of one Bernoulli draw at the arm's hidden probability. -/
theorem select_trial_spec (b : Bandits) (n : ℤ) (u : ℚ) :
    ((n < 0 ∨ (b.bandits.length : ℤ) ≤ n) → b.select n u = false) ∧
    (∀ p : ℚ, 0 ≤ n → b.bandits[n.toNat]? = some p →
      b.select n u = decide (binomialOne p u = 1)) := by
  constructor
  · intro h
    unfold Bandits.select
    rw [if_pos h]
  · intro p hn hp
    have hlt : n.toNat < b.bandits.length := by
      by_contra hc
      push_neg at hc
      rw [List.getElem?_eq_none hc] at hp
      exact Option.noConfusion hp
    have hgd : b.bandits.getD n.toNat 0 = p := by
      simp [List.getD, hp]
    unfold Bandits.select
    rw [if_neg (by omega), hgd]

/-- Claim C6: constructing the bandit environment rejects an arm count below
two with the configuration error, and for an arm count of at least two (with
uniform draws in `[0, 1)`) succeeds with that many hidden probabilities, all
in `[0, 1]`, with `max_prob` equal to their maximum. -/
theorem init_spec (size : ℤ) (draw : ℕ → ℚ) :
    (size < 2 → Bandits.init size draw =
      Except.error "Number of bandits for test is invalid, must specify at least two") ∧
    (2 ≤ size → (∀ i, 0 ≤ draw i ∧ draw i < 1) →
      ∃ b, Bandits.init size draw = Except.ok b ∧
        (b.bandits.length : ℤ) = size ∧
        (∀ p ∈ b.bandits, 0 ≤ p ∧ p ≤ 1) ∧
        b.max_prob ∈ b.bandits ∧
        ∀ p ∈ b.bandits, p ≤ b.max_prob) := by
  constructor
  · intro h
    unfold Bandits.init
    rw [if_pos h]
  · intro h2 hdraw
    obtain ⟨b, hb, hbl, hmem, hub⟩ := init_ok size draw h2
    refine ⟨b, hb, ?_, ?_, hmem, hub⟩
    · rw [hbl]
      simp only [List.length_map, List.length_range]
      omega
    · intro p hp
      rw [hbl] at hp
      obtain ⟨i, _, rfl⟩ := List.mem_map.mp hp
      exact ⟨(hdraw i).1, le_of_lt (hdraw i).2⟩

/-- Claim C7: a supplied trial count below one is coerced to one rather than
rejected, and with the coerced count of one a run over any valid arm count
(at least two) completes and returns exactly one round record. -/
theorem trial_count_coerced_to_one (bandit_count t : ℤ) (draw : ℕ → ℚ)
    (betaO : ℕ → ℕ → ℕ → ℕ → ℚ) (uO : ℕ → ℚ)
    (h2 : 2 ≤ bandit_count) (ht : t ≤ 1) :
    (t < 1 → (if t < 1 then (1 : ℤ) else t) = 1) ∧
    ∃ records, mainSim bandit_count t draw betaO uO = Except.ok records ∧
      records.length = 1 := by
  refine ⟨fun h => if_pos h, ?_⟩
  obtain ⟨b, hb, hbl, _, _⟩ := init_ok bandit_count draw h2
  have hlen : b.bandits.length = bandit_count.toNat := by
    rw [hbl]
    simp
  obtain ⟨st, hrunst, _, holen, _, _, _, _, _⟩ :=
    runSim_inv bandit_count.toNat b betaO uO (by omega) (by omega) 1
  have htc : (if t < 1 then (1 : ℤ) else t) = 1 := by
    rcases lt_or_ge t 1 with h | h
    · rw [if_pos h]
    · rw [if_neg (not_lt.mpr h)]
      omega
  have hmain : mainSim bandit_count t draw betaO uO =
      match runSim bandit_count.toNat b betaO uO 1 with
      | none => Except.error "IndexError"
      | some st2 => Except.ok st2.overallStats := by
    simp only [mainSim, htc, hb, Int.toNat_one]
  refine ⟨st.overallStats, ?_, by omega⟩
  rw [hmain, hrunst]

/-- Claim C8: over any run, cumulative regret is non-decreasing from each
round to the next, because every per-round increment is
`max_prob - probabilities[selected]` with the selected arm in range and
`max_prob` an upper bound of the probabilities. -/
theorem cumulative_regret_monotone (k : ℕ) (b : Bandits)
    (betaO : ℕ → ℕ → ℕ → ℕ → ℚ) (uO : ℕ → ℚ) (n : ℕ)
    (hk : k = b.bandits.length) (hpos : 0 < k)
    (hwf : ∀ p ∈ b.bandits, p ≤ b.max_prob) :
    ∃ st, runSim k b betaO uO n = some st ∧
      ∀ i r r', st.overallStats[i]? = some r → st.overallStats[i + 1]? = some r' →
        r.regret ≤ r'.regret := by
  obtain ⟨st, h1, _, _, _, _, _, hadjv, _⟩ := runSim_inv k b betaO uO hk hpos n
  refine ⟨st, h1, ?_⟩
  intro i r r' hr hr'
  obtain ⟨p, hpmem, heq⟩ := hadjv i r r' hr hr'
  have hple := hwf p hpmem
  rw [heq]
  linarith

/-- Claim C9: after any number of rounds each arm's wins plus losses equal
the number of rounds that selected it, and each single round mutates exactly
the selected arm's counters — incrementing wins on a reward and losses
otherwise — leaving every other arm's counters untouched. -/
theorem posterior_counters_track_selections (k : ℕ) (b : Bandits)
    (betaO : ℕ → ℕ → ℕ → ℕ → ℚ) (uO : ℕ → ℚ) (n : ℕ)
    (hk : k = b.bandits.length) (hpos : 0 < k) :
    (∃ st, runSim k b betaO uO n = some st ∧
      ∀ arm, arm < k → ∃ w l, st.banditStats[arm]? = some (w, l) ∧
        w + l = st.overallStats.countP (fun r => r.bandit == arm)) ∧
    (∀ st : SimState, ∀ betaI u, st.banditStats.length = b.bandits.length →
      ∃ st2 w l, simStep b betaI u st = some st2 ∧
        st.banditStats[selected_bandit betaI st]? = some (w, l) ∧
        st2.banditStats[selected_bandit betaI st]? =
          some (if b.select (selected_bandit betaI st : ℤ) u
            then (w + 1, l) else (w, l + 1)) ∧
        ∀ j, j ≠ selected_bandit betaI st →
          st2.banditStats[j]? = st.banditStats[j]?) := by
  constructor
  · obtain ⟨st, h1, _, _, _, _, _, _, h8⟩ := runSim_inv k b betaO uO hk hpos n
    exact ⟨st, h1, h8⟩
  · intro st betaI u hlen
    obtain ⟨w, l, p, hsel, hwlsel, hp, hstep⟩ :=
      simStep_eq b betaI u st hlen (by omega)
    have hselst : selected_bandit betaI st < st.banditStats.length := by omega
    refine ⟨_, w, l, hstep, hwlsel, ?_, ?_⟩
    · dsimp only
      by_cases hwon : b.select (selected_bandit betaI st : ℤ) u = true
      · rw [if_pos hwon, if_pos hwon, List.getElem?_set_self hselst]
      · rw [if_neg hwon, if_neg hwon, List.getElem?_set_self hselst]
    · intro j hj
      dsimp only
      by_cases hwon : b.select (selected_bandit betaI st : ℤ) u = true
      · rw [if_pos hwon, List.getElem?_set_ne (fun hc => hj hc.symm)]
      · rw [if_neg hwon, List.getElem?_set_ne (fun hc => hj hc.symm)]

/-- Claim C10: in every round of a run, the selected arm lies in `[0, K)`, so
the hidden-probability lookup succeeds, neither `select`'s nor `regret`'s
out-of-range guard fires, and `regret` returns a value — the loop never
aborts and all its array indexing stays in bounds. -/
theorem loop_indices_in_range (k : ℕ) (b : Bandits)
    (betaO : ℕ → ℕ → ℕ → ℕ → ℚ) (uO : ℕ → ℚ) (n : ℕ)
    (hk : k = b.bandits.length) (hpos : 0 < k) :
    ∃ st, runSim k b betaO uO n = some st ∧
      st.banditStats.length = k ∧
      ∀ r ∈ st.overallStats, r.bandit < k ∧
        (b.bandits[r.bandit]?).isSome ∧
        ¬((r.bandit : ℤ) < 0 ∨ (b.bandits.length : ℤ) ≤ (r.bandit : ℤ)) ∧
        ¬((r.bandit : ℤ) < 0 ∨ (b.bandits.length : ℤ) < (r.bandit : ℤ)) ∧
        (b.regret (r.bandit : ℤ)).isSome := by
  obtain ⟨st, h1, h2, _, _, _, hwl, _, _⟩ := runSim_inv k b betaO uO hk hpos n
  refine ⟨st, h1, h2, ?_⟩
  intro r hr
  obtain ⟨i, hi⟩ := List.mem_iff_getElem?.mp hr
  have hblt : r.bandit < b.bandits.length := by
    have := (hwl i r hi).2
    omega
  obtain ⟨p, hp⟩ : ∃ p, b.bandits[r.bandit]? = some p :=
    ⟨_, List.getElem?_eq_getElem hblt⟩
  refine ⟨by omega, by simp [hp], by omega, by omega, ?_⟩
  rw [regret_in_range b r.bandit hblt p hp]
  rfl

/-! ### Witnesses: the claim theorems applied at concrete inputs -/

/-- Concrete Beta oracle used by the C4 witness. -/
def betaW : ℕ → ℕ → ℕ → ℚ := fun i a c => (i + a + c : ℕ)

/-- Witness for C2 at two arms, constant oracles, and three rounds. -/
theorem run_produces_trialCount_records_witness :
    ∃ st, runSim 2 b₀ betaO₀ uO₀ 3 = some st ∧
      st.overallStats.length = 3 ∧
      ∀ i r, st.overallStats[i]? = some r → r.wins + r.losses = i + 1 :=
  run_produces_trialCount_records 2 b₀ betaO₀ uO₀ 3 rfl (by decide)

/-- Witness for C3 at the sample list of the claim's concrete example. -/
theorem argmax_selects_first_maximum_witness :
    ∃ m, ((1 : ℚ)/2 :: [9/10, 9/10])[argmax ((1 : ℚ)/2 :: [9/10, 9/10])]? = some m ∧
      (∀ y ∈ (1 : ℚ)/2 :: [9/10, 9/10], y ≤ m) ∧
      ∀ j, j < argmax ((1 : ℚ)/2 :: [9/10, 9/10]) →
        ∀ y, ((1 : ℚ)/2 :: [9/10, 9/10])[j]? = some y → y < m :=
  (argmax_selects_first_maximum ((1 : ℚ)/2) [9/10, 9/10]).1.2

/-- Witness for C4 at a concrete oracle and a two-arm stats list. -/
theorem draw_bandit_distribution_spec_witness :
    (draw_bandit_distribution betaW [(0, 0), (3, 4)])[1]? = some (betaW 1 4 5) :=
  (draw_bandit_distribution_spec betaW [(0, 0), (3, 4)]).2.1 1 3 4 (by decide)

/-- Witness for C5 at the concrete environment, arm 0 and draw 1/2. -/
theorem select_trial_spec_witness :
    (((0 : ℤ) < 0 ∨ (b₀.bandits.length : ℤ) ≤ (0 : ℤ)) → b₀.select 0 (1/2) = false) ∧
    (∀ p : ℚ, (0 : ℤ) ≤ 0 → b₀.bandits[(0 : ℤ).toNat]? = some p →
      b₀.select 0 (1/2) = decide (binomialOne p (1/2) = 1)) :=
  select_trial_spec b₀ 0 (1/2)

/-- Witness for C6 at arm count 2 and the constant draw 1/2. -/
theorem init_spec_witness :
    ∃ b, Bandits.init 2 (fun _ => 1/2) = Except.ok b ∧
      (b.bandits.length : ℤ) = 2 ∧
      (∀ p ∈ b.bandits, 0 ≤ p ∧ p ≤ 1) ∧
      b.max_prob ∈ b.bandits ∧
      ∀ p ∈ b.bandits, p ≤ b.max_prob :=
  (init_spec 2 (fun _ => 1/2)).2 (by decide)
    (fun _ => ⟨by norm_num, by norm_num⟩)

/-- Witness for C7 at arm count 2 and supplied trial count 0. -/
theorem trial_count_coerced_to_one_witness :
    ((0 : ℤ) < 1 → (if (0 : ℤ) < 1 then (1 : ℤ) else 0) = 1) ∧
    ∃ records, mainSim 2 0 (fun _ => 1/2) betaO₀ uO₀ = Except.ok records ∧
      records.length = 1 :=
  trial_count_coerced_to_one 2 0 (fun _ => 1/2) betaO₀ uO₀ (by decide) (by decide)

/-- Witness for C8 at two arms, constant oracles, and two rounds. -/
theorem cumulative_regret_monotone_witness :
    ∃ st, runSim 2 b₀ betaO₀ uO₀ 2 = some st ∧
      ∀ i r r', st.overallStats[i]? = some r → st.overallStats[i + 1]? = some r' →
        r.regret ≤ r'.regret :=
  cumulative_regret_monotone 2 b₀ betaO₀ uO₀ 2 rfl (by decide) (by simp [b₀])

/-- Witness for C9: one step from the all-zero state of a two-arm run. -/
theorem posterior_counters_track_selections_witness :
    ∃ st2 w l, simStep b₀ (betaO₀ 0) (1/2) (initState 2) = some st2 ∧
      (initState 2).banditStats[selected_bandit (betaO₀ 0) (initState 2)]? = some (w, l) ∧
      st2.banditStats[selected_bandit (betaO₀ 0) (initState 2)]? =
        some (if b₀.select (selected_bandit (betaO₀ 0) (initState 2) : ℤ) (1/2)
          then (w + 1, l) else (w, l + 1)) ∧
      ∀ j, j ≠ selected_bandit (betaO₀ 0) (initState 2) →
        st2.banditStats[j]? = (initState 2).banditStats[j]? :=
  (posterior_counters_track_selections 2 b₀ betaO₀ uO₀ 0 rfl (by decide)).2
    (initState 2) (betaO₀ 0) (1/2) rfl

/-- Witness for C10 at two arms, constant oracles, and two rounds. -/
theorem loop_indices_in_range_witness :
    ∃ st, runSim 2 b₀ betaO₀ uO₀ 2 = some st ∧
      st.banditStats.length = 2 ∧
      ∀ r ∈ st.overallStats, r.bandit < 2 ∧
        (b₀.bandits[r.bandit]?).isSome ∧
        ¬((r.bandit : ℤ) < 0 ∨ (b₀.bandits.length : ℤ) ≤ (r.bandit : ℤ)) ∧
        ¬((r.bandit : ℤ) < 0 ∨ (b₀.bandits.length : ℤ) < (r.bandit : ℤ)) ∧
        (b₀.regret (r.bandit : ℤ)).isSome :=
  loop_indices_in_range 2 b₀ betaO₀ uO₀ 2 rfl (by decide)

end BanditSpec
